import Mathlib

/-!
Shallow embedding of `poibin.py` (class `PoiBin`): the Poisson Binomial
distribution computed by discrete Fourier inversion of its characteristic
function, together with the input/query validation layer.

Real (float) arithmetic of the source is modelled by `ℝ`; the complex numby
values by `ℂ`.  `np.log`/`np.exp` on nonnegative reals are modelled with a
`⊥` element standing for the IEEE `-inf` produced by `np.log 0`, so that
`np.exp (np.log 0 + s) = 0` exactly as in the floating-point pipeline.
Python scalars that may reach the query interface are modelled by the
inductive `QueryVal` (the runtime type tag is part of the value, because the
source dispatches on `type(k)`).
-/

namespace PoiBin

/-- Tolerance `1e-15` used by `check_xi_are_real` (source line 207). -/
noncomputable def eps : ℝ := 1 / 10 ^ 15

/-- Source: `self.omega = 2 * np.pi / (self.n + 1)`. -/
noncomputable def omega (n : ℕ) : ℝ := 2 * Real.pi / (n + 1)

/-- Source `get_z`: `z = 1 - p[j] + p[j]*cos(omega*idx) + 1j*p[j]*sin(omega*idx)`. -/
noncomputable def get_z (p : List ℝ) (j idx : ℕ) : ℂ :=
  ((1 - p.getD j 0 : ℝ) : ℂ)
    + ((p.getD j 0 * Real.cos (omega p.length * idx) : ℝ) : ℂ)
    + Complex.I * ((p.getD j 0 * Real.sin (omega p.length * idx) : ℝ) : ℂ)

/-- Model of `np.arctan2 y x`: the principal argument of the point `(x, y)`,
in `(-π, π]`, which is exactly `Complex.arg (x + y*I)`. -/
noncomputable def arctan2 (y x : ℝ) : ℝ := Complex.arg ⟨x, y⟩

/-- Source `get_argz_sum`: `np.arctan2(y, x).sum()` with
`y = p*sin(omega*idx)` and `x = 1 - p + p*cos(omega*idx)`. -/
noncomputable def get_argz_sum (p : List ℝ) (idx : ℕ) : ℝ :=
  ∑ j in Finset.range p.length,
    arctan2 (p.getD j 0 * Real.sin (omega p.length * idx))
      (1 - p.getD j 0 + p.getD j 0 * Real.cos (omega p.length * idx))

/-- Model of `np.log` on a nonnegative float: `-inf` (here `⊥`) at `0`. -/
noncomputable def np_log (x : ℝ) : WithBot ℝ :=
  if x = 0 then ⊥ else (Real.log x : ℝ)

/-- Model of `np.exp` on a float-or-`-inf`: `np.exp (-inf) = 0`. -/
noncomputable def np_exp : WithBot ℝ → ℝ := WithBot.recBotCoe 0 Real.exp

/-- Source `get_d`: `exp( sum_j log |z_j(idx)| )`. -/
noncomputable def get_d (p : List ℝ) (idx : ℕ) : ℝ :=
  np_exp (∑ j in Finset.range p.length, np_log (Complex.abs (get_z p j idx)))

/-- Source `get_chi`: `chi = d * (cos(argz_sum) + 1j*sin(argz_sum))`. -/
noncomputable def get_chi (p : List ℝ) (idx : ℕ) : ℂ :=
  ((get_d p idx : ℝ) : ℂ)
    * (((Real.cos (get_argz_sum p idx) : ℝ) : ℂ)
        + Complex.I * ((Real.sin (get_argz_sum p idx) : ℝ) : ℂ))

/-- Source: `half_n = int(n/2 + n%2)` (true division then truncation); for a
natural `n` this value is `n/2 + n%2 = ⌈n/2⌉`. -/
def half_n (n : ℕ) : ℕ := n / 2 + n % 2

/-- The `chi` array of `get_pmf_xi` after both halves are filled in
(source lines 131-139): `chi[0] = 1`; `chi[i] = get_chi i` for
`1 ≤ i ≤ half_n`; `chi[half_n+1 : n+1] = conj(chi[1 : n-half_n+1][::-1])`. -/
noncomputable def chi_list (p : List ℝ) : List ℂ :=
  ((1 : ℂ) :: (List.range' 1 (half_n p.length)).map (get_chi p))
    ++ (((List.range' 1 (p.length - half_n p.length)).map (get_chi p)).reverse.map
          (starRingEnd ℂ))

/-- Model of `np.fft.fft` (forward transform, numpy convention):
`A_k = Σ_m a_m exp(-2πi m k / N)` with `N = a.length`. -/
noncomputable def np_fft (a : List ℂ) (k : ℕ) : ℂ :=
  ∑ l in Finset.range a.length,
    a.getD l 0 * Complex.exp (-(2 * (Real.pi : ℂ) * Complex.I * k * l) / a.length)

/-- The complex array `xi = np.fft.fft(chi / (n+1))` of length `n+1`
(source lines 140-141). -/
noncomputable def xi_complex (p : List ℝ) : List ℂ :=
  (List.range (p.length + 1)).map
    (np_fft ((chi_list p).map (fun z => z / ((p.length : ℂ) + 1))))

/-- Source `check_xi_are_real`: `np.all(xx.imag <= eps)` — note the signed,
one-sided comparison. -/
def check_xi_are_real (xx : List ℂ) : Prop := ∀ z ∈ xx, z.im ≤ eps

open scoped Classical in
/-- The realness gate of `get_pmf_xi` (source lines 142-146): keep the real
parts if the check passes, otherwise raise `TypeError`. -/
noncomputable def xi_to_real (xx : List ℂ) : Except String (List ℝ) :=
  if check_xi_are_real xx then Except.ok (xx.map Complex.re)
  else Except.error "pmf / xi values have to be real."

/-- Source `get_pmf_xi`: build `chi`, normalize, transform, realness gate. -/
noncomputable def get_pmf_xi (p : List ℝ) : Except String (List ℝ) :=
  xi_to_real (xi_complex p)

/-- Value of entry `i` of the cdf array of source `get_cdf`:
`c[0] = xx[0]`, `c[i] = c[i-1] + xx[i]`. -/
noncomputable def get_cdf_fun (xx : List ℝ) : ℕ → ℝ
  | 0 => xx.getD 0 0
  | i + 1 => get_cdf_fun xx i + xx.getD (i + 1) 0

/-- Source `get_cdf`: the array `c` of length `n+1` of partial sums. -/
noncomputable def get_cdf (xx : List ℝ) (n : ℕ) : List ℝ :=
  (List.range (n + 1)).map (get_cdf_fun xx)

/-- Result of `np.array` on the constructor input, keeping only the
dimensionality information the validation inspects. -/
inductive NpArray where
  | dim0 (x : ℝ)
  | dim1 (xs : List ℝ)
  | dim2 (xss : List (List ℝ))

open scoped Classical in
/-- Source `check_input_prob`: shape must be `(n,)` (only a one-dimensional
input has that shape), then all entries `≥ 0`, then all entries `≤ 1`. -/
noncomputable def check_input_prob : NpArray → Except String Unit
  | NpArray.dim1 xs =>
      if ∀ x ∈ xs, 0 ≤ x then
        if ∀ x ∈ xs, x ≤ 1 then Except.ok ()
        else Except.error "Input probabilites have to be smaller than 1."
      else Except.error "Input probabilites have to be non negative."
  | NpArray.dim0 _ => Except.error "Input must be an one-dimensional array or a list."
  | NpArray.dim2 _ => Except.error "Input must be an one-dimensional array or a list."

/-- The state stored by a `PoiBin` instance after `__init__`. -/
structure Engine where
  p : List ℝ
  n : ℕ
  pmf_list : List ℝ
  cdf_list : List ℝ

/-- Source `__init__`: validate, then compute `pmf_list = get_pmf_xi()` and
`cdf_list = get_cdf(pmf_list)`; any raised error aborts construction. -/
noncomputable def init (a : NpArray) : Except String Engine :=
  match check_input_prob a with
  | Except.error s => Except.error s
  | Except.ok _ =>
    match a with
    | NpArray.dim1 p =>
      match get_pmf_xi p with
      | Except.error s => Except.error s
      | Except.ok pm => Except.ok ⟨p, p.length, pm, get_cdf pm p.length⟩
    | NpArray.dim0 _ => Except.error "Input must be an one-dimensional array or a list."
    | NpArray.dim2 _ => Except.error "Input must be an one-dimensional array or a list."

/-- Python scalar values that can reach `check_rv_input`, tagged with the
runtime type the source inspects via `type(k)`. -/
inductive QueryVal where
  | pyInt (v : ℤ)
  | npInt64 (v : ℤ)
  | npInt32 (v : ℤ)
  | pyFloat (q : ℚ)

/-- The source's accepted types: `type(k) == int or type(k) == np.int64`. -/
def queryIsInt : QueryVal → Bool
  | QueryVal.pyInt _ => true
  | QueryVal.npInt64 _ => true
  | QueryVal.npInt32 _ => false
  | QueryVal.pyFloat _ => false

/-- The integer value carried by an integer-typed query (junk `0` on floats,
never used behind the type gate). -/
def queryIntVal : QueryVal → ℤ
  | QueryVal.pyInt v => v
  | QueryVal.npInt64 v => v
  | QueryVal.npInt32 v => v
  | QueryVal.pyFloat _ => 0

/-- Index used for the numpy array lookup `pmf_list[kk]`. -/
def queryIdx (k : QueryVal) : ℕ := (queryIntVal k).toNat

/-- Python `kk == 0`. -/
def queryIsZero : QueryVal → Bool
  | QueryVal.pyInt v => decide (v = 0)
  | QueryVal.npInt64 v => decide (v = 0)
  | QueryVal.npInt32 v => decide (v = 0)
  | QueryVal.pyFloat q => decide (q = 0)

/-- Python `kk - 1` (the numeric type is preserved). -/
def querySub1 : QueryVal → QueryVal
  | QueryVal.pyInt v => QueryVal.pyInt (v - 1)
  | QueryVal.npInt64 v => QueryVal.npInt64 (v - 1)
  | QueryVal.npInt32 v => QueryVal.npInt32 (v - 1)
  | QueryVal.pyFloat q => QueryVal.pyFloat (q - 1)

/-- Scalar branch of source `check_rv_input`: assert the type tag, then
`kk >= 0`, then `kk <= n`; the first failed assertion raises. -/
def check_rv_scalar (n : ℕ) : QueryVal → Except String Unit
  | QueryVal.pyInt v =>
      if v < 0 then Except.error "Input value cannot be negative."
      else if (n : ℤ) < v then Except.error "Input value cannot be greater than n"
      else Except.ok ()
  | QueryVal.npInt64 v =>
      if v < 0 then Except.error "Input value cannot be negative."
      else if (n : ℤ) < v then Except.error "Input value cannot be greater than n"
      else Except.ok ()
  | QueryVal.npInt32 _ => Except.error "Input value must be an integer."
  | QueryVal.pyFloat _ => Except.error "Input value must be an integer."

/-- Iterable branch of source `check_rv_input`: the same three assertions for
each element in order; the first failed assertion raises. -/
def check_rv_list (n : ℕ) : List QueryVal → Except String Unit
  | [] => Except.ok ()
  | k :: ks =>
    match k with
    | QueryVal.pyInt v =>
        if v < 0 then Except.error "Values in input list cannot be negative."
        else if (n : ℤ) < v then
          Except.error "Values in input list must be smaller or equal to n"
        else check_rv_list n ks
    | QueryVal.npInt64 v =>
        if v < 0 then Except.error "Values in input list cannot be negative."
        else if (n : ℤ) < v then
          Except.error "Values in input list must be smaller or equal to n"
        else check_rv_list n ks
    | QueryVal.npInt32 _ => Except.error "Values in input list must be integers"
    | QueryVal.pyFloat _ => Except.error "Values in input list must be integers"

/-- A query argument: a scalar, or an iterable of scalars. -/
inductive QueryInput where
  | scalar (k : QueryVal)
  | batch (ks : List QueryVal)

/-- Source `check_rv_input`: iterate if iterable, else the scalar asserts. -/
def check_rv_input (n : ℕ) : QueryInput → Except String Unit
  | QueryInput.scalar k => check_rv_scalar n k
  | QueryInput.batch ks => check_rv_list n ks

/-- Result of a query method: a scalar for scalar input, an array for
iterable input. -/
inductive Answer where
  | scalar (x : ℝ)
  | batch (xs : List ℝ)

/-- Source `pmf`: validate, then index `pmf_list[kk]` (elementwise numpy
indexing on iterables).  The returned `Engine` is the (unmodified) state. -/
noncomputable def pmf_method (e : Engine) (kk : QueryInput) :
    Except String Answer × Engine :=
  ((match check_rv_input e.n kk with
    | Except.error s => Except.error s
    | Except.ok _ =>
      match kk with
      | QueryInput.scalar k => Except.ok (Answer.scalar (e.pmf_list.getD (queryIdx k) 0))
      | QueryInput.batch ks =>
          Except.ok (Answer.batch (ks.map (fun k => e.pmf_list.getD (queryIdx k) 0)))),
   e)

/-- Source `cdf`: validate, then index `cdf_list[kk]`. -/
noncomputable def cdf_method (e : Engine) (kk : QueryInput) :
    Except String Answer × Engine :=
  ((match check_rv_input e.n kk with
    | Except.error s => Except.error s
    | Except.ok _ =>
      match kk with
      | QueryInput.scalar k => Except.ok (Answer.scalar (e.cdf_list.getD (queryIdx k) 0))
      | QueryInput.batch ks =>
          Except.ok (Answer.batch (ks.map (fun k => e.cdf_list.getD (queryIdx k) 0)))),
   e)

/-- The scalar call `self.cdf(k)` as used inside `pval` (it re-validates). -/
noncomputable def cdf_scalar (e : Engine) (k : QueryVal) : Except String ℝ :=
  match check_rv_scalar e.n k with
  | Except.error s => Except.error s
  | Except.ok _ => Except.ok (e.cdf_list.getD (queryIdx k) 0)

/-- The scalar call `self.pmf(k)` as used inside `pval` (it re-validates). -/
noncomputable def pmf_scalar (e : Engine) (k : QueryVal) : Except String ℝ :=
  match check_rv_scalar e.n k with
  | Except.error s => Except.error s
  | Except.ok _ => Except.ok (e.pmf_list.getD (queryIdx k) 0)

/-- Source `pval`: validate, then for an iterable compute
`1 - self.cdf(k) + self.pmf(k)` elementwise; for a scalar return `1` when
`kk == 0` and `1 - self.cdf(kk - 1)` otherwise. -/
noncomputable def pval_method (e : Engine) (kk : QueryInput) :
    Except String Answer × Engine :=
  ((match check_rv_input e.n kk with
    | Except.error s => Except.error s
    | Except.ok _ =>
      match kk with
      | QueryInput.batch ks =>
        match ks.mapM (fun k => do
            let c ← cdf_scalar e k
            let m ← pmf_scalar e k
            pure (1 - c + m)) with
        | Except.ok ys => Except.ok (Answer.batch ys)
        | Except.error s => Except.error s
      | QueryInput.scalar k =>
        if queryIsZero k then Except.ok (Answer.scalar 1)
        else
          match cdf_scalar e (querySub1 k) with
          | Except.ok c => Except.ok (Answer.scalar (1 - c))
          | Except.error s => Except.error s),
   e)

/-! ### Validation-layer lemmas -/

/-- Validity of a single query value in the sense enforced by the source:
accepted runtime type (`int` or `np.int64`), nonnegative, and at most `n`. -/
def queryValValid (n : ℕ) (k : QueryVal) : Prop :=
  queryIsInt k = true ∧ 0 ≤ queryIntVal k ∧ queryIntVal k ≤ (n : ℤ)

/-- Validity of a whole query argument: every carried value is valid. -/
def queryInputValid (n : ℕ) : QueryInput → Prop
  | QueryInput.scalar k => queryValValid n k
  | QueryInput.batch ks => ∀ k ∈ ks, queryValValid n k

lemma check_rv_scalar_ok_iff (n : ℕ) (k : QueryVal) :
    check_rv_scalar n k = Except.ok () ↔ queryValValid n k := by
  cases k with
  | pyInt v =>
    simp only [check_rv_scalar, queryValValid, queryIsInt, queryIntVal]
    split_ifs with h1 h2 <;> simp <;> omega
  | npInt64 v =>
    simp only [check_rv_scalar, queryValValid, queryIsInt, queryIntVal]
    split_ifs with h1 h2 <;> simp <;> omega
  | npInt32 v => simp [check_rv_scalar, queryValValid, queryIsInt]
  | pyFloat q => simp [check_rv_scalar, queryValValid, queryIsInt]

lemma check_rv_list_ok_iff (n : ℕ) (ks : List QueryVal) :
    check_rv_list n ks = Except.ok () ↔ ∀ k ∈ ks, queryValValid n k := by
  induction ks with
  | nil => simp [check_rv_list]
  | cons k ks ih =>
    cases k with
    | pyInt v =>
      simp only [check_rv_list, List.mem_cons, forall_eq_or_imp, ← ih]
      split_ifs with h1 h2 <;>
        simp [queryValValid, queryIsInt, queryIntVal] <;> omega
    | npInt64 v =>
      simp only [check_rv_list, List.mem_cons, forall_eq_or_imp, ← ih]
      split_ifs with h1 h2 <;>
        simp [queryValValid, queryIsInt, queryIntVal] <;> omega
    | npInt32 v => simp [check_rv_list, queryValValid, queryIsInt]
    | pyFloat q => simp [check_rv_list, queryValValid, queryIsInt]

lemma check_rv_input_ok_iff (n : ℕ) (kk : QueryInput) :
    check_rv_input n kk = Except.ok () ↔ queryInputValid n kk := by
  cases kk with
  | scalar k => exact check_rv_scalar_ok_iff n k
  | batch ks => exact check_rv_list_ok_iff n ks

lemma except_unit_error_iff (x : Except String Unit) :
    (∃ s, x = Except.error s) ↔ ¬ x = Except.ok () := by
  cases x <;> simp

lemma cdf_scalar_ok (e : Engine) (k : QueryVal) (h : queryValValid e.n k) :
    cdf_scalar e k = Except.ok (e.cdf_list.getD (queryIdx k) 0) := by
  rw [cdf_scalar, (check_rv_scalar_ok_iff e.n k).mpr h]

lemma pmf_scalar_ok (e : Engine) (k : QueryVal) (h : queryValValid e.n k) :
    pmf_scalar e k = Except.ok (e.pmf_list.getD (queryIdx k) 0) := by
  rw [pmf_scalar, (check_rv_scalar_ok_iff e.n k).mpr h]

lemma querySub1_valid (n : ℕ) (k : QueryVal) (h : queryValValid n k)
    (h0 : queryIsZero k = false) : queryValValid n (querySub1 k) := by
  cases k with
  | pyInt v =>
    simp only [queryValValid, queryIntVal, queryIsInt, querySub1] at h ⊢
    simp only [queryIsZero, decide_eq_false_iff_not] at h0
    exact ⟨trivial, by omega, by omega⟩
  | npInt64 v =>
    simp only [queryValValid, queryIntVal, queryIsInt, querySub1] at h ⊢
    simp only [queryIsZero, decide_eq_false_iff_not] at h0
    exact ⟨trivial, by omega, by omega⟩
  | npInt32 v => simp [queryValValid, queryIsInt] at h
  | pyFloat q => simp [queryValValid, queryIsInt] at h

lemma pval_mapM_ok (e : Engine) (ks : List QueryVal)
    (h : ∀ k ∈ ks, queryValValid e.n k) :
    (ks.mapM (fun k => do
        let c ← cdf_scalar e k
        let m ← pmf_scalar e k
        pure (1 - c + m)) : Except String (List ℝ)) =
      Except.ok (ks.map (fun k =>
        1 - e.cdf_list.getD (queryIdx k) 0 + e.pmf_list.getD (queryIdx k) 0)) := by
  induction ks with
  | nil => rfl
  | cons k ks ih =>
    rw [List.mapM_cons, cdf_scalar_ok e k (h k (List.mem_cons_self k ks)),
      pmf_scalar_ok e k (h k (List.mem_cons_self k ks)),
      ih (fun x hx => h x (List.mem_cons_of_mem k hx))]
    rfl

lemma pval_batch_fst (e : Engine) (ks : List QueryVal)
    (hv : ∀ k ∈ ks, queryValValid e.n k) :
    (pval_method e (QueryInput.batch ks)).1 =
      Except.ok (Answer.batch (ks.map (fun k =>
        1 - e.cdf_list.getD (queryIdx k) 0 + e.pmf_list.getD (queryIdx k) 0))) := by
  have hc : check_rv_input e.n (QueryInput.batch ks) = Except.ok () :=
    (check_rv_input_ok_iff _ _).mpr hv
  simp only [pval_method, hc, pval_mapM_ok e ks hv]

lemma pval_scalar_zero_fst (e : Engine) (k : QueryVal) (hv : queryValValid e.n k)
    (h0 : queryIsZero k = true) :
    (pval_method e (QueryInput.scalar k)).1 = Except.ok (Answer.scalar 1) := by
  have hc : check_rv_input e.n (QueryInput.scalar k) = Except.ok () :=
    (check_rv_input_ok_iff _ _).mpr hv
  simp [pval_method, hc, h0]

lemma pval_scalar_pos_fst (e : Engine) (k : QueryVal) (hv : queryValValid e.n k)
    (h0 : queryIsZero k = false) :
    (pval_method e (QueryInput.scalar k)).1 =
      Except.ok (Answer.scalar (1 - e.cdf_list.getD (queryIdx (querySub1 k)) 0)) := by
  have hc : check_rv_input e.n (QueryInput.scalar k) = Except.ok () :=
    (check_rv_input_ok_iff _ _).mpr hv
  have hcdf := cdf_scalar_ok e (querySub1 k) (querySub1_valid e.n k hv h0)
  simp [pval_method, hc, h0, hcdf]

/-- C2: for every engine and every query passed to `pmf`, `cdf` or `pval`,
the call fails exactly when the query is invalid (a value whose runtime type
is not an accepted integer type, or negative, or greater than `n`), the
engine state returned by the call is unchanged, and — since the result of a
call depends only on the (unchanged) engine and the argument — subsequent
valid queries still succeed. -/
theorem query_methods_contract (e : Engine) (kk : QueryInput) :
    (pmf_method e kk).2 = e ∧ (cdf_method e kk).2 = e ∧ (pval_method e kk).2 = e ∧
    ((∃ s, (pmf_method e kk).1 = Except.error s) ↔ ¬ queryInputValid e.n kk) ∧
    ((∃ s, (cdf_method e kk).1 = Except.error s) ↔ ¬ queryInputValid e.n kk) ∧
    ((∃ s, (pval_method e kk).1 = Except.error s) ↔ ¬ queryInputValid e.n kk) := by
  refine ⟨rfl, rfl, rfl, ?_, ?_, ?_⟩ <;>
    rw [← check_rv_input_ok_iff, ← except_unit_error_iff] <;>
    constructor
  · rintro ⟨s, hs⟩
    rcases hc : check_rv_input e.n kk with s' | u
    · exact ⟨s', rfl⟩
    · exfalso; cases kk <;> simp [pmf_method, hc] at hs
  · rintro ⟨s, hs⟩
    refine ⟨s, ?_⟩
    simp [pmf_method, hs]
  · rintro ⟨s, hs⟩
    rcases hc : check_rv_input e.n kk with s' | u
    · exact ⟨s', rfl⟩
    · exfalso; cases kk <;> simp [cdf_method, hc] at hs
  · rintro ⟨s, hs⟩
    refine ⟨s, ?_⟩
    simp [cdf_method, hs]
  · rintro ⟨s, hs⟩
    rcases hc : check_rv_input e.n kk with s' | u
    · exact ⟨s', rfl⟩
    · exfalso
      have hv : queryInputValid e.n kk := (check_rv_input_ok_iff e.n kk).mp (by rw [hc])
      cases kk with
      | scalar k =>
        rcases h0 : queryIsZero k with _ | _
        · rw [pval_scalar_pos_fst e k hv h0] at hs; simp at hs
        · rw [pval_scalar_zero_fst e k hv h0] at hs; simp at hs
      | batch ks =>
        rw [pval_batch_fst e ks hv] at hs; simp at hs
  · rintro ⟨s, hs⟩
    refine ⟨s, ?_⟩
    simp [pval_method, hs]

/-- C10: query validation accepts a value only when its runtime type is
exactly Python `int` or `np.int64`; an integer of any other numeric type
(`np.int32`, or a float) is rejected whatever its value, both as a scalar
and as a batch element, while `int`/`np.int64` values are accepted exactly
when they lie in `[0, n]`. -/
theorem query_type_gate_strict (n : ℕ) (v : ℤ) (q : ℚ) :
    (∃ s, check_rv_input n (QueryInput.scalar (QueryVal.npInt32 v)) = Except.error s) ∧
    (∃ s, check_rv_input n (QueryInput.scalar (QueryVal.pyFloat q)) = Except.error s) ∧
    (∃ s, check_rv_input n (QueryInput.batch [QueryVal.npInt32 v]) = Except.error s) ∧
    (∃ s, check_rv_input n (QueryInput.batch [QueryVal.pyFloat q]) = Except.error s) ∧
    (check_rv_input n (QueryInput.scalar (QueryVal.pyInt v)) = Except.ok () ↔
      0 ≤ v ∧ v ≤ (n : ℤ)) ∧
    (check_rv_input n (QueryInput.scalar (QueryVal.npInt64 v)) = Except.ok () ↔
      0 ≤ v ∧ v ≤ (n : ℤ)) := by
  refine ⟨⟨_, rfl⟩, ⟨_, rfl⟩, ⟨_, rfl⟩, ⟨_, rfl⟩, ?_, ?_⟩ <;>
    rw [check_rv_input, check_rv_scalar_ok_iff] <;>
    simp [queryValValid, queryIsInt, queryIntVal]

/-! ### The `check_xi_are_real` gate (claim C1) -/

/-- C1 as stated is false on the code: the gate compares the signed
imaginary part with the tolerance, so an element whose imaginary part is a
large negative number (magnitude far above `1e-15`) does not make the
construction step fail.  Concrete input: `xi = [1 - 1j]`. -/
theorem xi_gate_cex :
    ¬ ((∃ s, xi_to_real [(⟨1, -1⟩ : ℂ)] = Except.error s) ↔
        ∃ z ∈ [(⟨1, -1⟩ : ℂ)], eps < |z.im|) := by
  have hcheck : check_xi_are_real [(⟨1, -1⟩ : ℂ)] := by
    intro z hz
    rcases List.mem_singleton.mp hz with rfl
    norm_num [eps]
  intro h
  obtain ⟨s, hs⟩ := h.mpr ⟨⟨1, -1⟩, List.mem_singleton.mpr rfl, by norm_num [eps]⟩
  rw [xi_to_real, if_pos hcheck] at hs
  simp at hs

lemma xi_to_real_ok_of (xx : List ℂ) (h : ∀ z ∈ xx, z.im ≤ eps) :
    xi_to_real xx = Except.ok (xx.map Complex.re) := by
  have h' : check_xi_are_real xx := h
  rw [xi_to_real, if_pos h']

/-- C1 amended: the gate of `get_pmf_xi` fails (raising `TypeError`) exactly
when some element of `xi` has imaginary part strictly greater than `1e-15`
(a signed, one-sided comparison — large negative imaginary parts pass);
when no element exceeds the tolerance, the real parts are kept as the pmf
vector. -/
theorem xi_gate_signed (xx : List ℂ) :
    ((∃ s, xi_to_real xx = Except.error s) ↔ ∃ z ∈ xx, eps < z.im) ∧
    ((∀ z ∈ xx, z.im ≤ eps) →
      xi_to_real xx = Except.ok (xx.map Complex.re)) := by
  constructor
  · rw [xi_to_real]
    split_ifs with h
    · simp only [check_xi_are_real] at h
      constructor
      · rintro ⟨s, hs⟩; simp at hs
      · rintro ⟨z, hz, hlt⟩; exact absurd (h z hz) (not_le.mpr hlt)
    · simp only [check_xi_are_real, not_forall] at h
      obtain ⟨z, hz, hlt⟩ := h
      exact iff_of_true ⟨_, rfl⟩ ⟨z, hz, not_le.mp hlt⟩
  · exact xi_to_real_ok_of xx

/-- Witness for the second part of `xi_gate_signed` at the concrete input
`xi = [1 + 0j]`. -/
theorem xi_gate_signed_witness :
    (∀ z ∈ [(⟨1, 0⟩ : ℂ)], z.im ≤ eps) ∧
      xi_to_real [(⟨1, 0⟩ : ℂ)] = Except.ok [(1 : ℝ)] := by
  have h : ∀ z ∈ [(⟨1, 0⟩ : ℂ)], z.im ≤ eps := by
    intro z hz
    rcases List.mem_singleton.mp hz with rfl
    norm_num [eps]
  exact ⟨h, (xi_gate_signed [(⟨1, 0⟩ : ℂ)]).2 h⟩

/-! ### Prefix sums -/

lemma get_cdf_fun_eq_sum (xx : List ℝ) (k : ℕ) :
    get_cdf_fun xx k = ∑ i in Finset.range (k + 1), xx.getD i 0 := by
  induction k with
  | zero => simp [get_cdf_fun]
  | succ k ih =>
    rw [get_cdf_fun, ih, Finset.sum_range_succ (fun i => xx.getD i 0) (k + 1)]

lemma get_cdf_getD (xx : List ℝ) (n k : ℕ) (hk : k ≤ n) :
    (get_cdf xx n).getD k 0 = get_cdf_fun xx k := by
  rw [get_cdf, List.getD_eq_getElem _ _ (by simpa using Nat.lt_succ_of_le hk)]
  simp

/-! ### The characteristic-function product identity -/

lemma np_exp_bot : np_exp (⊥ : WithBot ℝ) = 0 := rfl

lemma np_exp_coe (x : ℝ) : np_exp ((x : ℝ) : WithBot ℝ) = Real.exp x := rfl

/-- Exact semantics of `exp(sum(log(v)))` on a nonnegative vector, `-inf`
convention included: it is the product of the entries. -/
lemma np_exp_sum_log {ι : Type} (s : Finset ι) (f : ι → ℝ)
    (hf : ∀ j ∈ s, 0 ≤ f j) :
    np_exp (∑ j in s, np_log (f j)) = ∏ j in s, f j := by
  by_cases hz : ∃ j ∈ s, f j = 0
  · obtain ⟨j0, hj0, hfj0⟩ := hz
    have hbot : (∑ j in s, np_log (f j)) = (⊥ : WithBot ℝ) :=
      WithBot.sum_eq_bot_iff.mpr ⟨j0, hj0, by simp [np_log, hfj0]⟩
    rw [hbot, np_exp_bot, Finset.prod_eq_zero hj0 hfj0]
  · push_neg at hz
    have hlog : ∀ j ∈ s, np_log (f j) = ((Real.log (f j) : ℝ) : WithBot ℝ) := by
      intro j hj; simp [np_log, hz j hj]
    rw [Finset.sum_congr rfl hlog, ← WithBot.coe_sum, np_exp_coe, Real.exp_sum]
    exact Finset.prod_congr rfl fun j hj =>
      Real.exp_log (lt_of_le_of_ne (hf j hj) (Ne.symm (hz j hj)))

lemma get_z_re (p : List ℝ) (j idx : ℕ) :
    (get_z p j idx).re =
      1 - p.getD j 0 + p.getD j 0 * Real.cos (omega p.length * idx) := by
  rw [get_z]
  simp only [Complex.add_re, Complex.add_im, Complex.mul_re, Complex.mul_im,
    Complex.I_re, Complex.I_im, Complex.ofReal_re, Complex.ofReal_im]
  ring

lemma get_z_im (p : List ℝ) (j idx : ℕ) :
    (get_z p j idx).im = p.getD j 0 * Real.sin (omega p.length * idx) := by
  rw [get_z]
  simp only [Complex.add_re, Complex.add_im, Complex.mul_re, Complex.mul_im,
    Complex.I_re, Complex.I_im, Complex.ofReal_re, Complex.ofReal_im]
  ring

lemma arctan2_arg (p : List ℝ) (j idx : ℕ) :
    arctan2 (p.getD j 0 * Real.sin (omega p.length * idx))
      (1 - p.getD j 0 + p.getD j 0 * Real.cos (omega p.length * idx)) =
      Complex.arg (get_z p j idx) := by
  rw [arctan2]
  congr 1
  apply Complex.ext
  · simp [get_z_re]
  · simp [get_z_im]

lemma get_d_eq_prod (p : List ℝ) (idx : ℕ) :
    get_d p idx = ∏ j in Finset.range p.length, Complex.abs (get_z p j idx) := by
  rw [get_d]
  exact np_exp_sum_log _ _ fun j _ => Complex.abs.nonneg _

lemma get_argz_sum_eq (p : List ℝ) (idx : ℕ) :
    get_argz_sum p idx
      = ∑ j in Finset.range p.length, Complex.arg (get_z p j idx) := by
  rw [get_argz_sum]
  exact Finset.sum_congr rfl fun j _ => arctan2_arg p j idx

lemma cos_add_I_sin (t : ℝ) :
    ((Real.cos t : ℝ) : ℂ) + Complex.I * ((Real.sin t : ℝ) : ℂ)
      = Complex.exp ((t : ℝ) * Complex.I) := by
  rw [Complex.exp_mul_I, Complex.ofReal_cos, Complex.ofReal_sin]
  ring

/-- `get_chi` computes, in polar form, the product of the per-trial
characteristic-function factors `z_j`. -/
lemma get_chi_eq_prod (p : List ℝ) (idx : ℕ) :
    get_chi p idx = ∏ j in Finset.range p.length, get_z p j idx := by
  rw [get_chi, get_d_eq_prod, get_argz_sum_eq, cos_add_I_sin]
  push_cast
  rw [Finset.sum_mul, Complex.exp_sum, ← Finset.prod_mul_distrib]
  exact Finset.prod_congr rfl fun j _ => Complex.abs_mul_exp_arg_mul_I _

/-! ### Indexing the `chi` array -/

lemma half_n_le (n : ℕ) : half_n n ≤ n := by
  rw [half_n]; omega

lemma chi_list_length (p : List ℝ) : (chi_list p).length = p.length + 1 := by
  have := half_n_le p.length
  simp [chi_list]
  omega

lemma chi_list_getD_zero (p : List ℝ) : (chi_list p).getD 0 0 = 1 := rfl

lemma chi_list_getD_first (p : List ℝ) (l : ℕ) (h1 : 1 ≤ l)
    (h2 : l ≤ half_n p.length) :
    (chi_list p).getD l 0 = get_chi p l := by
  obtain ⟨m, rfl⟩ : ∃ m, l = m + 1 := ⟨l - 1, by omega⟩
  rw [chi_list, List.getD_append _ _ _ _ (by simp; omega), List.getD_cons_succ]
  have hm : m < ((List.range' 1 (half_n p.length)).map (get_chi p)).length := by
    simp; omega
  rw [List.getD_eq_getElem _ _ hm]
  simp [List.getElem_range'_1, Nat.add_comm]

lemma rev_map_getD (g : ℂ → ℂ) (f : ℕ → ℂ) (b t : ℕ) (ht : t < b) :
    ((((List.range' 1 b).map f).reverse).map g).getD t 0 = g (f (b - t)) := by
  have h1 : t < ((((List.range' 1 b).map f).reverse).map g).length := by
    simpa using ht
  rw [List.getD_eq_getElem _ _ h1, List.getElem_map, List.getElem_reverse,
    List.getElem_map, List.getElem_range'_1]
  have harg : 1 + (((List.range' 1 b).map f).length - 1 - t) = b - t := by
    simp only [List.length_map, List.length_range']
    omega
  rw [harg]

lemma chi_list_getD_second (p : List ℝ) (l : ℕ) (h1 : half_n p.length + 1 ≤ l)
    (h2 : l ≤ p.length) :
    (chi_list p).getD l 0 = (starRingEnd ℂ) (get_chi p (p.length + 1 - l)) := by
  have hhl := half_n_le p.length
  rw [chi_list, List.getD_append_right _ _ _ _ (by simp; omega)]
  have hlen1 : ((1 : ℂ) :: (List.range' 1 (half_n p.length)).map (get_chi p)).length
      = half_n p.length + 1 := by simp
  rw [hlen1, rev_map_getD (starRingEnd ℂ) (get_chi p) (p.length - half_n p.length)
    (l - (half_n p.length + 1)) (by omega)]
  have harg : p.length - half_n p.length - (l - (half_n p.length + 1))
      = p.length + 1 - l := by omega
  rw [harg]

/-- Conjugate symmetry of the per-trial factors: `z_j(n+1-l) = conj (z_j(l))`,
because `omega * (n+1) = 2π`. -/
lemma get_z_conj (p : List ℝ) (j l : ℕ) (h1 : 1 ≤ l) (hl : l ≤ p.length) :
    (starRingEnd ℂ) (get_z p j (p.length + 1 - l)) = get_z p j l := by
  have hcast : ((p.length + 1 - l : ℕ) : ℝ) = (p.length : ℝ) + 1 - (l : ℝ) := by
    have hle : l ≤ p.length + 1 := by omega
    push_cast [hle]
    ring
  have homega : omega p.length * ((p.length : ℝ) + 1 - (l : ℝ))
      = 2 * Real.pi - omega p.length * l := by
    rw [omega]
    have hne : (p.length : ℝ) + 1 ≠ 0 := by positivity
    field_simp
    ring
  apply Complex.ext
  · rw [Complex.conj_re, get_z_re, get_z_re, hcast, homega, Real.cos_sub,
      Real.cos_two_pi, Real.sin_two_pi]
    ring
  · rw [Complex.conj_im, get_z_im, get_z_im, hcast, homega, Real.sin_sub,
      Real.sin_two_pi, Real.cos_two_pi]
    ring

/-- Each entry of the filled `chi` array is the true characteristic-function
sample: the product over all trials of `z_j(l)`. -/
lemma chi_list_getD_prod (p : List ℝ) (l : ℕ) (hl : l ≤ p.length) :
    (chi_list p).getD l 0 = ∏ j in Finset.range p.length, get_z p j l := by
  rcases Nat.eq_zero_or_pos l with rfl | hpos
  · rw [chi_list_getD_zero]
    symm
    apply Finset.prod_eq_one
    intro j _
    rw [get_z]
    push_cast
    simp
  · by_cases hhalf : l ≤ half_n p.length
    · rw [chi_list_getD_first p l hpos hhalf, get_chi_eq_prod]
    · push_neg at hhalf
      rw [chi_list_getD_second p l (by omega) hl, get_chi_eq_prod, map_prod]
      exact Finset.prod_congr rfl fun j _ => get_z_conj p j l hpos hl

/-! ### The exact Poisson Binomial pmf and the inversion identity -/

/-- The exact pmf of the Poisson Binomial distribution with success
probabilities `p`, via the one-trial-at-a-time convolution recurrence. -/
noncomputable def pmfE : List ℝ → ℕ → ℝ
  | [], 0 => 1
  | [], _ + 1 => 0
  | q :: rest, 0 => (1 - q) * pmfE rest 0
  | q :: rest, m + 1 => (1 - q) * pmfE rest (m + 1) + q * pmfE rest m

lemma pmfE_eq_zero_of_gt : ∀ (p : List ℝ) (m : ℕ), p.length < m → pmfE p m = 0 := by
  intro p
  induction p with
  | nil =>
    intro m hm
    cases m with
    | zero => omega
    | succ m => simp [pmfE]
  | cons q rest ih =>
    intro m hm
    cases m with
    | zero => simp at hm
    | succ m =>
      have hm' : rest.length < m := by simpa using hm
      rw [pmfE, ih (m + 1) (by omega), ih m hm']
      ring

lemma pmfE_nonneg : ∀ (p : List ℝ), (∀ x ∈ p, 0 ≤ x ∧ x ≤ 1) →
    ∀ m, 0 ≤ pmfE p m := by
  intro p
  induction p with
  | nil =>
    intro _ m
    cases m with
    | zero => norm_num [pmfE]
    | succ m => simp [pmfE]
  | cons q rest ih =>
    intro hp m
    have hq := hp q (List.mem_cons_self q rest)
    have hrest : ∀ x ∈ rest, 0 ≤ x ∧ x ≤ 1 :=
      fun x hx => hp x (List.mem_cons_of_mem q hx)
    cases m with
    | zero =>
      rw [pmfE]
      exact mul_nonneg (by linarith [hq.2]) (ih hrest 0)
    | succ m =>
      rw [pmfE]
      exact add_nonneg (mul_nonneg (by linarith [hq.2]) (ih hrest (m + 1)))
        (mul_nonneg hq.1 (ih hrest m))

/-- Expansion of the generating product: for every complex `u`,
`∏_j (1 - p_j + p_j u) = Σ_m pmfE(m) u^m`. -/
lemma list_prod_eq_sum_pmfE (p : List ℝ) (u : ℂ) :
    (p.map (fun q : ℝ => 1 - (q : ℂ) + (q : ℂ) * u)).prod
      = ∑ m in Finset.range (p.length + 1), ((pmfE p m : ℝ) : ℂ) * u ^ m := by
  induction p with
  | nil => simp [pmfE]
  | cons q rest ih =>
    set L := rest.length with hL
    set S := ∑ m in Finset.range (L + 1), ((pmfE rest m : ℝ) : ℂ) * u ^ m with hSdef
    have hzero : pmfE rest (L + 1) = 0 := pmfE_eq_zero_of_gt rest (L + 1) (by omega)
    have hstep1 : (List.map (fun q : ℝ => 1 - (q : ℂ) + (q : ℂ) * u) (q :: rest)).prod
        = (1 - (q : ℂ) + (q : ℂ) * u) * S := by
      rw [List.map_cons, List.prod_cons, ih]
    have hlen : (q :: rest).length = L + 1 := rfl
    have hsum1 : ∑ m in Finset.range (L + 1 + 1), ((pmfE (q :: rest) m : ℝ) : ℂ) * u ^ m
        = (∑ i in Finset.range (L + 1), ((pmfE (q :: rest) (i + 1) : ℝ) : ℂ) * u ^ (i + 1))
          + ((pmfE (q :: rest) 0 : ℝ) : ℂ) * u ^ 0 :=
      Finset.sum_range_succ' (fun m => ((pmfE (q :: rest) m : ℝ) : ℂ) * u ^ m) (L + 1)
    have hsum2 : ∑ i in Finset.range (L + 1), ((pmfE (q :: rest) (i + 1) : ℝ) : ℂ) * u ^ (i + 1)
        = ∑ i in Finset.range (L + 1),
            ((1 - (q : ℂ)) * (((pmfE rest (i + 1) : ℝ) : ℂ) * u ^ (i + 1))
              + (q : ℂ) * u * (((pmfE rest i : ℝ) : ℂ) * u ^ i)) := by
      refine Finset.sum_congr rfl fun i _ => ?_
      rw [pmfE]
      push_cast
      ring
    have hsum3 : ∑ i in Finset.range (L + 1),
          ((1 - (q : ℂ)) * (((pmfE rest (i + 1) : ℝ) : ℂ) * u ^ (i + 1))
            + (q : ℂ) * u * (((pmfE rest i : ℝ) : ℂ) * u ^ i))
        = (1 - (q : ℂ))
            * (∑ i in Finset.range (L + 1), ((pmfE rest (i + 1) : ℝ) : ℂ) * u ^ (i + 1))
          + (q : ℂ) * u * S := by
      rw [Finset.sum_add_distrib, ← Finset.mul_sum, ← Finset.mul_sum]
    have hshift : ∑ i in Finset.range (L + 1), ((pmfE rest (i + 1) : ℝ) : ℂ) * u ^ (i + 1)
        = S - ((pmfE rest 0 : ℝ) : ℂ) * u ^ 0 := by
      have h1 := Finset.sum_range_succ' (fun m => ((pmfE rest m : ℝ) : ℂ) * u ^ m) (L + 1)
      have h2 := Finset.sum_range_succ (fun m => ((pmfE rest m : ℝ) : ℂ) * u ^ m) (L + 1)
      rw [h2, hzero] at h1
      push_cast at h1
      linear_combination -h1
    have hE0 : ((pmfE (q :: rest) 0 : ℝ) : ℂ)
        = (1 - (q : ℂ)) * ((pmfE rest 0 : ℝ) : ℂ) := by
      rw [pmfE]
      push_cast
      ring
    rw [hstep1, hlen, hsum1, hsum2, hsum3, hshift, hE0]
    ring

/-- The coefficients `pmfE` sum to one (evaluate the product at `u = 1`). -/
lemma pmfE_sum_eq_one (p : List ℝ) :
    ∑ m in Finset.range (p.length + 1), pmfE p m = 1 := by
  have h := list_prod_eq_sum_pmfE p 1
  have hprod : (p.map (fun q : ℝ => 1 - (q : ℂ) + (q : ℂ) * 1)).prod = 1 := by
    apply List.prod_eq_one
    intro x hx
    obtain ⟨q, hq, rfl⟩ := List.mem_map.mp hx
    ring
  rw [hprod] at h
  have h2 : ((∑ m in Finset.range (p.length + 1), pmfE p m : ℝ) : ℂ) = 1 := by
    push_cast
    refine Eq.trans ?_ h.symm
    exact Finset.sum_congr rfl fun m _ => by ring
  exact_mod_cast h2

/-- The primitive `(n+1)`-st root of unity used by the transform. -/
noncomputable def wroot (n : ℕ) : ℂ :=
  Complex.exp (2 * (Real.pi : ℂ) * Complex.I / ((n : ℂ) + 1))

lemma wroot_ne_zero (n : ℕ) : wroot n ≠ 0 := Complex.exp_ne_zero _

lemma wroot_isPrimitiveRoot (n : ℕ) : IsPrimitiveRoot (wroot n) (n + 1) := by
  have h := Complex.isPrimitiveRoot_exp (n + 1) (Nat.succ_ne_zero n)
  have heq : wroot n = Complex.exp (2 * (Real.pi : ℂ) * Complex.I / ((n + 1 : ℕ) : ℂ)) := by
    rw [wroot]
    push_cast
    ring_nf
  rw [heq]
  exact h

lemma wroot_pow_succ (n : ℕ) : wroot n ^ (n + 1) = 1 :=
  (wroot_isPrimitiveRoot n).pow_eq_one

lemma exp_omega (n l : ℕ) :
    Complex.exp (((omega n * l : ℝ) : ℂ) * Complex.I) = wroot n ^ l := by
  rw [wroot, ← Complex.exp_nat_mul]
  congr 1
  rw [omega]
  have hne : ((n : ℂ) + 1) ≠ 0 := by
    have h0 : ((n + 1 : ℕ) : ℂ) ≠ 0 := Nat.cast_ne_zero.mpr (Nat.succ_ne_zero n)
    push_cast at h0
    exact h0
  push_cast
  field_simp
  ring

lemma exp_fft_term (n k l : ℕ) :
    Complex.exp (-(2 * (Real.pi : ℂ) * Complex.I * k * l) / ((n : ℂ) + 1))
      = (wroot n ^ (k * l))⁻¹ := by
  rw [wroot, ← Complex.exp_nat_mul, ← Complex.exp_neg]
  congr 1
  push_cast
  ring

lemma prod_range_getD (f : ℝ → ℂ) : ∀ p : List ℝ,
    ∏ j in Finset.range p.length, f (p.getD j 0) = (p.map f).prod := by
  intro p
  induction p with
  | nil => simp
  | cons q rest ih =>
    rw [List.length_cons,
      Finset.prod_range_succ' (fun i => f ((q :: rest).getD i 0)) rest.length]
    simp only [List.getD_cons_succ, List.getD_cons_zero]
    rw [ih, List.map_cons, List.prod_cons]
    ring

lemma prod_get_z_eq (p : List ℝ) (l : ℕ) :
    ∏ j in Finset.range p.length, get_z p j l
      = (p.map (fun q : ℝ => 1 - (q : ℂ) + (q : ℂ) * (wroot p.length ^ l))).prod := by
  have hz : ∀ j, get_z p j l
      = 1 - ((p.getD j 0 : ℝ) : ℂ) + ((p.getD j 0 : ℝ) : ℂ) * (wroot p.length ^ l) := by
    intro j
    rw [← exp_omega p.length l, get_z, Complex.exp_mul_I]
    push_cast
    ring
  rw [Finset.prod_congr rfl fun j _ => hz j]
  exact prod_range_getD (fun q : ℝ => 1 - (q : ℂ) + (q : ℂ) * (wroot p.length ^ l)) p

/-- Each (normalization-free) `chi` entry is the value at `wroot^l` of the
probability generating polynomial of the distribution. -/
lemma chi_entry_expansion (p : List ℝ) (l : ℕ) (hl : l ≤ p.length) :
    (chi_list p).getD l 0
      = ∑ m in Finset.range (p.length + 1),
          ((pmfE p m : ℝ) : ℂ) * (wroot p.length ^ l) ^ m := by
  rw [chi_list_getD_prod p l hl, prod_get_z_eq, list_prod_eq_sum_pmfE]

/-- Orthogonality of the root-of-unity powers over a full period. -/
lemma wroot_zpow_geom (n k m : ℕ) (hk : k ≤ n) (hm : m ≤ n) :
    ∑ l in Finset.range (n + 1), (wroot n ^ ((m : ℤ) - (k : ℤ))) ^ l
      = if m = k then ((n : ℂ) + 1) else 0 := by
  rcases eq_or_ne m k with rfl | hne
  · rw [if_pos rfl]
    simp only [sub_self, zpow_zero, one_pow, Finset.sum_const, Finset.card_range,
      nsmul_eq_mul, mul_one]
    push_cast
    ring
  · rw [if_neg hne]
    have hr1 : wroot n ^ ((m : ℤ) - (k : ℤ)) ≠ 1 := by
      intro hr
      have hdvd : ((n + 1 : ℕ) : ℤ) ∣ ((m : ℤ) - (k : ℤ)) :=
        ((wroot_isPrimitiveRoot n).zpow_eq_one_iff_dvd _).mp hr
      have habs : |(m : ℤ) - (k : ℤ)| ≤ (n : ℤ) := by
        rw [abs_sub_le_iff]
        constructor <;> omega
      have hne0 : (m : ℤ) - (k : ℤ) ≠ 0 := by
        intro h0
        apply hne
        omega
      have hle := Int.le_of_dvd (abs_pos.mpr hne0) ((dvd_abs _ _).mpr hdvd)
      push_cast at hle
      omega
    rw [geom_sum_eq hr1]
    have hpow : (wroot n ^ ((m : ℤ) - (k : ℤ))) ^ (n + 1) = 1 := by
      rw [← zpow_natCast (wroot n ^ ((m : ℤ) - (k : ℤ))) (n + 1), ← zpow_mul,
        mul_comm ((m : ℤ) - (k : ℤ)) ((n + 1 : ℕ) : ℤ), zpow_mul, zpow_natCast,
        wroot_pow_succ, one_zpow]
    rw [hpow, sub_self, zero_div]

/-- The discrete Fourier inversion identity: entry `k` of the transform of
the normalized `chi` array is exactly the `k`-th Poisson Binomial
probability. -/
lemma fft_chi_entry (p : List ℝ) (k : ℕ) (hk : k ≤ p.length) :
    np_fft ((chi_list p).map (fun z => z / ((p.length : ℂ) + 1))) k
      = ((pmfE p k : ℝ) : ℂ) := by
  have hne : ((p.length : ℂ) + 1) ≠ 0 := by
    have h0 : ((p.length + 1 : ℕ) : ℂ) ≠ 0 :=
      Nat.cast_ne_zero.mpr (Nat.succ_ne_zero p.length)
    push_cast at h0
    exact h0
  have hlen : ((chi_list p).map (fun z => z / ((p.length : ℂ) + 1))).length
      = p.length + 1 := by
    rw [List.length_map, chi_list_length]
  rw [np_fft, hlen]
  push_cast
  have hterm : ∀ l ∈ Finset.range (p.length + 1),
      ((chi_list p).map (fun z => z / ((p.length : ℂ) + 1))).getD l 0
          * Complex.exp (-(2 * (Real.pi : ℂ) * Complex.I * k * l) / ((p.length : ℂ) + 1))
        = ∑ m in Finset.range (p.length + 1),
            ((pmfE p m : ℝ) : ℂ) / ((p.length : ℂ) + 1)
              * (wroot p.length ^ ((m : ℤ) - (k : ℤ))) ^ l := by
    intro l hl
    have hl' : l < p.length + 1 := Finset.mem_range.mp hl
    have hgetD : ((chi_list p).map (fun z => z / ((p.length : ℂ) + 1))).getD l 0
        = (chi_list p).getD l 0 / ((p.length : ℂ) + 1) := by
      rw [List.getD_eq_getElem _ _ (by rw [hlen]; omega), List.getElem_map,
        List.getD_eq_getElem _ _ (by rw [chi_list_length]; omega)]
    rw [hgetD, chi_entry_expansion p l (by omega), exp_fft_term, Finset.sum_div,
      Finset.sum_mul]
    refine Finset.sum_congr rfl fun m _ => ?_
    have hzp : (wroot p.length ^ l) ^ m * (wroot p.length ^ (k * l))⁻¹
        = (wroot p.length ^ ((m : ℤ) - (k : ℤ))) ^ l := by
      rw [← pow_mul, ← zpow_natCast (wroot p.length) (l * m),
        ← zpow_natCast (wroot p.length) (k * l), ← zpow_neg,
        ← zpow_add₀ (wroot_ne_zero p.length),
        ← zpow_natCast (wroot p.length ^ ((m : ℤ) - (k : ℤ))) l, ← zpow_mul]
      congr 1
      push_cast
      ring
    rw [← hzp]
    ring
  rw [Finset.sum_congr rfl hterm, Finset.sum_comm]
  have hswap : ∑ m in Finset.range (p.length + 1), ∑ l in Finset.range (p.length + 1),
        ((pmfE p m : ℝ) : ℂ) / ((p.length : ℂ) + 1)
          * (wroot p.length ^ ((m : ℤ) - (k : ℤ))) ^ l
      = ∑ m in Finset.range (p.length + 1),
          ((pmfE p m : ℝ) : ℂ) / ((p.length : ℂ) + 1)
            * ∑ l in Finset.range (p.length + 1),
                (wroot p.length ^ ((m : ℤ) - (k : ℤ))) ^ l :=
    Finset.sum_congr rfl fun m _ => (Finset.mul_sum _ _ _).symm
  rw [hswap]
  have hgeom : ∀ m ∈ Finset.range (p.length + 1),
      ((pmfE p m : ℝ) : ℂ) / ((p.length : ℂ) + 1)
          * ∑ l in Finset.range (p.length + 1),
              (wroot p.length ^ ((m : ℤ) - (k : ℤ))) ^ l
        = ((pmfE p m : ℝ) : ℂ) / ((p.length : ℂ) + 1)
            * (if m = k then ((p.length : ℂ) + 1) else 0) := by
    intro m hm
    rw [wroot_zpow_geom p.length k m hk (Nat.lt_succ_iff.mp (Finset.mem_range.mp hm))]
  rw [Finset.sum_congr rfl hgeom,
    Finset.sum_eq_single_of_mem k (Finset.mem_range.mpr (by omega))
      (fun m _ hne' => by rw [if_neg hne', mul_zero]),
    if_pos rfl]
  exact div_mul_cancel₀ _ hne

/-! ### The pmf vector produced by the pipeline -/

lemma list_sum_map_range (f : ℕ → ℝ) (m : ℕ) :
    ((List.range m).map f).sum = ∑ i in Finset.range m, f i := by
  induction m with
  | zero => simp
  | succ m ih =>
    rw [List.range_succ, List.map_append, List.sum_append, Finset.sum_range_succ, ih]
    simp

lemma xi_complex_getD (p : List ℝ) (k : ℕ) (hk : k ≤ p.length) :
    (xi_complex p).getD k 0 = ((pmfE p k : ℝ) : ℂ) := by
  rw [xi_complex, List.getD_eq_getElem _ _ (by simp; omega), List.getElem_map,
    List.getElem_range]
  exact fft_chi_entry p _ hk

lemma mem_xi_complex (p : List ℝ) (z : ℂ) (hz : z ∈ xi_complex p) :
    ∃ k, k ≤ p.length ∧ z = ((pmfE p k : ℝ) : ℂ) := by
  rw [xi_complex] at hz
  obtain ⟨k, hk, rfl⟩ := List.mem_map.mp hz
  have hk' : k ≤ p.length := Nat.lt_succ_iff.mp (List.mem_range.mp hk)
  exact ⟨k, hk', fft_chi_entry p k hk'⟩

/-- In exact arithmetic the transform output is real, so the realness gate
always passes. -/
lemma check_xi_ok (p : List ℝ) : check_xi_are_real (xi_complex p) := by
  intro z hz
  obtain ⟨k, hk, rfl⟩ := mem_xi_complex p z hz
  rw [Complex.ofReal_im, eps]
  positivity

lemma get_pmf_xi_ok (p : List ℝ) :
    get_pmf_xi p = Except.ok ((xi_complex p).map Complex.re) := by
  rw [get_pmf_xi]
  exact xi_to_real_ok_of (xi_complex p) (check_xi_ok p)

lemma pmf_vec (p : List ℝ) : (xi_complex p).map Complex.re
    = (List.range (p.length + 1)).map (fun k => pmfE p k) := by
  rw [xi_complex, List.map_map]
  refine List.map_congr_left ?_
  intro k hk
  have hk' : k ≤ p.length := Nat.lt_succ_iff.mp (List.mem_range.mp hk)
  rw [Function.comp_apply, fft_chi_entry p k hk', Complex.ofReal_re]

lemma pmf_vec_getD (p : List ℝ) (k : ℕ) (hk : k ≤ p.length) :
    ((xi_complex p).map Complex.re).getD k 0 = pmfE p k := by
  rw [pmf_vec, List.getD_eq_getElem _ _ (by simp; omega), List.getElem_map,
    List.getElem_range]

lemma pmf_vec_length (p : List ℝ) :
    ((xi_complex p).map Complex.re).length = p.length + 1 := by
  simp [xi_complex]

lemma pmf_vec_sum (p : List ℝ) : ((xi_complex p).map Complex.re).sum = 1 := by
  rw [pmf_vec, list_sum_map_range, pmfE_sum_eq_one]

lemma check_input_prob_ok (p : List ℝ) (hp : ∀ x ∈ p, 0 ≤ x ∧ x ≤ 1) :
    check_input_prob (NpArray.dim1 p) = Except.ok () := by
  have h1 : ∀ x ∈ p, 0 ≤ x := fun x hx => (hp x hx).1
  have h2 : ∀ x ∈ p, x ≤ 1 := fun x hx => (hp x hx).2
  simp only [check_input_prob]
  rw [if_pos h1, if_pos h2]

/-- Construction succeeds on a valid probability vector and produces exactly
the engine holding the transform's real parts and their prefix sums. -/
lemma init_dim1_ok (p : List ℝ) (hp : ∀ x ∈ p, 0 ≤ x ∧ x ≤ 1) :
    init (NpArray.dim1 p) = Except.ok
      ⟨p, p.length, (xi_complex p).map Complex.re,
        get_cdf ((xi_complex p).map Complex.re) p.length⟩ := by
  simp only [init, check_input_prob_ok p hp, get_pmf_xi_ok p]

/-! ### Remaining claims -/

/-- C5: construction fails (with `InvalidInput`, a `ValueError`) exactly when
the input is not one-dimensional or some element lies outside `[0, 1]`; on
failure no engine is produced (the result carries no engine), and otherwise
an engine is produced. -/
theorem init_ok_iff (a : NpArray) :
    (∃ e, init a = Except.ok e) ↔
      ∃ xs, a = NpArray.dim1 xs ∧ ∀ x ∈ xs, 0 ≤ x ∧ x ≤ 1 := by
  cases a with
  | dim0 x =>
    constructor
    · rintro ⟨e, he⟩
      simp [init, check_input_prob] at he
    · rintro ⟨xs, hxs, -⟩
      exact NpArray.noConfusion hxs
  | dim2 xss =>
    constructor
    · rintro ⟨e, he⟩
      simp [init, check_input_prob] at he
    · rintro ⟨xs, hxs, -⟩
      exact NpArray.noConfusion hxs
  | dim1 xs =>
    constructor
    · rintro ⟨e, he⟩
      refine ⟨xs, rfl, ?_⟩
      by_contra hbad
      by_cases h1 : ∀ x ∈ xs, 0 ≤ x
      · have h2 : ¬ ∀ x ∈ xs, x ≤ 1 :=
          fun h2 => hbad fun x hx => ⟨h1 x hx, h2 x hx⟩
        have hchk : check_input_prob (NpArray.dim1 xs)
            = Except.error "Input probabilites have to be smaller than 1." := by
          simp only [check_input_prob]
          rw [if_pos h1, if_neg h2]
        simp [init, hchk] at he
      · have hchk : check_input_prob (NpArray.dim1 xs)
            = Except.error "Input probabilites have to be non negative." := by
          simp only [check_input_prob]
          rw [if_neg h1]
        simp [init, hchk] at he
    · rintro ⟨xs', hxs, hgood⟩
      injection hxs with h
      subst h
      exact ⟨_, init_dim1_ok _ hgood⟩

/-- C6: for every valid probability vector, `get_pmf_xi` succeeds and the
resulting pmf vector of length `n+1` has all entries nonnegative (indeed in
`[0, 1]`, hence finite) and sums to `1`, in particular within `1e-9`. -/
theorem pmf_vector_valid (p : List ℝ) (hp : ∀ x ∈ p, 0 ≤ x ∧ x ≤ 1) :
    ∃ v, get_pmf_xi p = Except.ok v ∧ v.length = p.length + 1 ∧
      (∀ x ∈ v, 0 ≤ x ∧ x ≤ 1) ∧ |v.sum - 1| ≤ 1 / 10 ^ 9 := by
  refine ⟨(xi_complex p).map Complex.re, get_pmf_xi_ok p, pmf_vec_length p, ?_, ?_⟩
  · intro x hx
    rw [pmf_vec] at hx
    obtain ⟨k, hk, rfl⟩ := List.mem_map.mp hx
    have hk' : k ≤ p.length := Nat.lt_succ_iff.mp (List.mem_range.mp hk)
    refine ⟨pmfE_nonneg p hp k, ?_⟩
    have hle : pmfE p k ≤ ∑ m in Finset.range (p.length + 1), pmfE p m :=
      Finset.single_le_sum (fun m _ => pmfE_nonneg p hp m)
        (Finset.mem_range.mpr (by omega))
    rw [pmfE_sum_eq_one] at hle
    exact hle
  · rw [pmf_vec_sum]
    norm_num

/-- C7: for every valid probability vector the constructed engine's cdf
vector is monotonically non-decreasing in `k`, and its last entry `cdf(n)`
equals `1`, in particular within `1e-9`. -/
theorem cdf_monotone_total (p : List ℝ) (hp : ∀ x ∈ p, 0 ≤ x ∧ x ≤ 1) :
    ∃ e : Engine, init (NpArray.dim1 p) = Except.ok e ∧
      (∀ k, k < e.n → e.cdf_list.getD k 0 ≤ e.cdf_list.getD (k + 1) 0) ∧
      |e.cdf_list.getD e.n 0 - 1| ≤ 1 / 10 ^ 9 := by
  refine ⟨_, init_dim1_ok p hp, ?_, ?_⟩
  · intro k hk
    dsimp only at hk ⊢
    rw [get_cdf_getD _ _ _ (by omega : k ≤ p.length),
      get_cdf_getD _ _ _ (by omega : k + 1 ≤ p.length)]
    have hnn : 0 ≤ ((xi_complex p).map Complex.re).getD (k + 1) 0 := by
      rw [pmf_vec_getD p (k + 1) (by omega)]
      exact pmfE_nonneg p hp (k + 1)
    have hstep : get_cdf_fun ((xi_complex p).map Complex.re) (k + 1)
        = get_cdf_fun ((xi_complex p).map Complex.re) k
          + ((xi_complex p).map Complex.re).getD (k + 1) 0 := by
      rw [get_cdf_fun]
    rw [hstep]
    exact le_add_of_nonneg_right hnn
  · dsimp only
    rw [get_cdf_getD _ _ _ le_rfl, get_cdf_fun_eq_sum]
    have hsum : ∑ i in Finset.range (p.length + 1),
        ((xi_complex p).map Complex.re).getD i 0
        = ∑ i in Finset.range (p.length + 1), pmfE p i :=
      Finset.sum_congr rfl fun i hi =>
        pmf_vec_getD p i (Nat.lt_succ_iff.mp (Finset.mem_range.mp hi))
    rw [hsum, pmfE_sum_eq_one]
    norm_num

/-- C8: the constructed engine's cdf vector is the prefix-sum vector of its
pmf vector: entry `k` is the sum of pmf entries `0..k`; equivalently entry 0
is the pmf entry 0 and each later entry is the previous cdf entry plus the
pmf entry at that index. -/
theorem cdf_prefix_sum (p : List ℝ) (hp : ∀ x ∈ p, 0 ≤ x ∧ x ≤ 1) :
    ∃ e : Engine, init (NpArray.dim1 p) = Except.ok e ∧
      (∀ k, k ≤ e.n →
        e.cdf_list.getD k 0 = ∑ i in Finset.range (k + 1), e.pmf_list.getD i 0) ∧
      e.cdf_list.getD 0 0 = e.pmf_list.getD 0 0 ∧
      (∀ k, 1 ≤ k → k ≤ e.n →
        e.cdf_list.getD k 0 = e.cdf_list.getD (k - 1) 0 + e.pmf_list.getD k 0) := by
  refine ⟨_, init_dim1_ok p hp, ?_, ?_, ?_⟩
  · intro k hk
    dsimp only at hk ⊢
    exact (get_cdf_getD _ _ _ hk).trans (get_cdf_fun_eq_sum _ k)
  · dsimp only
    rw [get_cdf_getD _ _ _ (Nat.zero_le _)]
    rw [get_cdf_fun]
  · intro k h1 hk
    dsimp only at hk ⊢
    obtain ⟨j, rfl⟩ : ∃ j, k = j + 1 := ⟨k - 1, by omega⟩
    rw [get_cdf_getD _ _ _ hk, get_cdf_getD _ _ _ (by omega), Nat.add_sub_cancel]
    rw [get_cdf_fun]

/-- C3: on every constructed engine, `pval(0) = 1` exactly — as a Python
`int` or `np.int64` scalar, and at every position of a batch query holding
`0`; the `kk == 0` branch returns the constant `1` without calling
`cdf(-1)` (had it, the modelled `cdf` call would have failed validation,
and the result would not be `ok`). -/
theorem pval_zero_one (p : List ℝ) (hp : ∀ x ∈ p, 0 ≤ x ∧ x ≤ 1) :
    ∃ e : Engine, init (NpArray.dim1 p) = Except.ok e ∧
      (pval_method e (QueryInput.scalar (QueryVal.pyInt 0))).1
        = Except.ok (Answer.scalar 1) ∧
      (pval_method e (QueryInput.scalar (QueryVal.npInt64 0))).1
        = Except.ok (Answer.scalar 1) ∧
      ∀ ks : List QueryVal, (∀ k ∈ ks, queryValValid e.n k) →
        ∃ ys : List ℝ,
          (pval_method e (QueryInput.batch ks)).1 = Except.ok (Answer.batch ys) ∧
          ∀ i, i < ks.length → ks.getD i (QueryVal.pyInt 0) = QueryVal.pyInt 0 →
            ys.getD i 0 = 1 := by
  refine ⟨_, init_dim1_ok p hp, ?_, ?_, ?_⟩
  · refine pval_scalar_zero_fst _ _ ⟨rfl, le_refl 0, ?_⟩ rfl
    show (0 : ℤ) ≤ (p.length : ℤ)
    omega
  · refine pval_scalar_zero_fst _ _ ⟨rfl, le_refl 0, ?_⟩ rfl
    show (0 : ℤ) ≤ (p.length : ℤ)
    omega
  · intro ks hv
    refine ⟨_, pval_batch_fst _ ks hv, ?_⟩
    intro i hi h0
    have hlen : i < (ks.map (fun k =>
        1 - (get_cdf ((xi_complex p).map Complex.re) p.length).getD (queryIdx k) 0
          + ((xi_complex p).map Complex.re).getD (queryIdx k) 0)).length := by
      simpa using hi
    rw [List.getD_eq_getElem _ _ hlen, List.getElem_map]
    rw [List.getD_eq_getElem _ _ hi] at h0
    have hksi : ks[i] = QueryVal.pyInt 0 := h0
    rw [hksi]
    show 1 - (get_cdf ((xi_complex p).map Complex.re) p.length).getD 0 0
        + ((xi_complex p).map Complex.re).getD 0 0 = 1
    rw [get_cdf_getD _ _ _ (Nat.zero_le _), get_cdf_fun]
    ring

/-- C4: on every constructed engine and every `1 ≤ k ≤ n`, `pval(k)` equals
`1 - cdf(k-1)` exactly, on the scalar path (computed directly as
`1 - cdf(k-1)`) and on the batch path (computed as `1 - cdf(k) + pmf(k)`). -/
theorem pval_identity (p : List ℝ) (hp : ∀ x ∈ p, 0 ≤ x ∧ x ≤ 1) (k : ℕ)
    (hk1 : 1 ≤ k) (hk2 : k ≤ p.length) :
    ∃ e : Engine, init (NpArray.dim1 p) = Except.ok e ∧
      (pval_method e (QueryInput.scalar (QueryVal.pyInt (k : ℤ)))).1
        = Except.ok (Answer.scalar (1 - e.cdf_list.getD (k - 1) 0)) ∧
      ∃ ys : List ℝ,
        (pval_method e (QueryInput.batch [QueryVal.pyInt (k : ℤ)])).1
          = Except.ok (Answer.batch ys) ∧
        ys.getD 0 0 = 1 - e.cdf_list.getD (k - 1) 0 := by
  have hv : queryValValid p.length (QueryVal.pyInt (k : ℤ)) := by
    refine ⟨rfl, ?_, ?_⟩
    · show (0 : ℤ) ≤ (k : ℤ)
      omega
    · show (k : ℤ) ≤ (p.length : ℤ)
      omega
  have h0 : queryIsZero (QueryVal.pyInt (k : ℤ)) = false := by
    simp only [queryIsZero, decide_eq_false_iff_not]
    omega
  have hidx : queryIdx (querySub1 (QueryVal.pyInt (k : ℤ))) = k - 1 := by
    simp only [querySub1, queryIdx, queryIntVal]
    omega
  have hidx2 : queryIdx (QueryVal.pyInt (k : ℤ)) = k := by
    simp only [queryIdx, queryIntVal]
    omega
  refine ⟨_, init_dim1_ok p hp, ?_, ?_⟩
  · rw [pval_scalar_pos_fst _ _ hv h0, hidx]
  · refine ⟨_, pval_batch_fst _ [QueryVal.pyInt (k : ℤ)]
      (fun x hx => by rcases List.mem_singleton.mp hx with rfl; exact hv), ?_⟩
    rw [List.map_cons, List.map_nil, List.getD_cons_zero, hidx2]
    dsimp only
    obtain ⟨j, rfl⟩ : ∃ j, k = j + 1 := ⟨k - 1, by omega⟩
    rw [get_cdf_getD _ _ _ hk2, get_cdf_getD _ _ _ (by omega), Nat.add_sub_cancel]
    have hstep : get_cdf_fun ((xi_complex p).map Complex.re) (j + 1)
        = get_cdf_fun ((xi_complex p).map Complex.re) j
          + ((xi_complex p).map Complex.re).getD (j + 1) 0 := by
      rw [get_cdf_fun]
    rw [hstep]
    ring

/-- C9: in `get_pmf_xi`, `chi[0] = 1`; the first half
`chi[1..half_n]` (with `half_n = ⌈n/2⌉`) is computed from the
characteristic-function terms via `get_chi`; the second half is filled by
conjugate symmetry, `chi[l] = conj (chi[n+1-l])` for `half_n+1 ≤ l ≤ n`;
and the array passed to the transform is `chi` with every entry divided by
`n+1`. -/
theorem chi_fill_symmetry (p : List ℝ) (l : ℕ) :
    half_n p.length = (p.length + 1) / 2 ∧
    (chi_list p).getD 0 0 = 1 ∧
    (1 ≤ l → l ≤ half_n p.length → (chi_list p).getD l 0 = get_chi p l) ∧
    (half_n p.length + 1 ≤ l → l ≤ p.length →
      (chi_list p).getD l 0
        = (starRingEnd ℂ) ((chi_list p).getD (p.length + 1 - l) 0)) ∧
    xi_complex p = (List.range (p.length + 1)).map
      (np_fft ((chi_list p).map (fun z => z / ((p.length : ℂ) + 1)))) := by
  refine ⟨by rw [half_n]; omega, chi_list_getD_zero p,
    fun h1 h2 => chi_list_getD_first p l h1 h2, fun h1 h2 => ?_, rfl⟩
  have hh : half_n p.length = p.length / 2 + p.length % 2 := rfl
  rw [chi_list_getD_second p l h1 h2,
    chi_list_getD_first p (p.length + 1 - l) (by omega) (by omega)]

/-! ### Witnesses -/

/-- Witness for `pmf_vector_valid` at the concrete input `p = []`. -/
theorem pmf_vector_valid_witness :
    (∀ x ∈ ([] : List ℝ), 0 ≤ x ∧ x ≤ 1) ∧
      ∃ v, get_pmf_xi [] = Except.ok v ∧ v.length = 1 ∧
        (∀ x ∈ v, 0 ≤ x ∧ x ≤ 1) ∧ |v.sum - 1| ≤ 1 / 10 ^ 9 := by
  have h : ∀ x ∈ ([] : List ℝ), 0 ≤ x ∧ x ≤ 1 := by simp
  obtain ⟨v, h1, h2, h3, h4⟩ := pmf_vector_valid [] h
  exact ⟨h, v, h1, h2, h3, h4⟩

/-- Witness for `cdf_monotone_total` at the concrete input `p = []`. -/
theorem cdf_monotone_total_witness :
    (∀ x ∈ ([] : List ℝ), 0 ≤ x ∧ x ≤ 1) ∧
      ∃ e : Engine, init (NpArray.dim1 []) = Except.ok e ∧
        |e.cdf_list.getD e.n 0 - 1| ≤ 1 / 10 ^ 9 := by
  have h : ∀ x ∈ ([] : List ℝ), 0 ≤ x ∧ x ≤ 1 := by simp
  obtain ⟨e, he, -, h2⟩ := cdf_monotone_total [] h
  exact ⟨h, e, he, h2⟩

/-- Witness for `cdf_prefix_sum` at the concrete input `p = []`. -/
theorem cdf_prefix_sum_witness :
    (∀ x ∈ ([] : List ℝ), 0 ≤ x ∧ x ≤ 1) ∧
      ∃ e : Engine, init (NpArray.dim1 []) = Except.ok e ∧
        e.cdf_list.getD 0 0 = e.pmf_list.getD 0 0 := by
  have h : ∀ x ∈ ([] : List ℝ), 0 ≤ x ∧ x ≤ 1 := by simp
  obtain ⟨e, he, -, h0, -⟩ := cdf_prefix_sum [] h
  exact ⟨h, e, he, h0⟩

/-- Witness for `pval_zero_one` at the concrete input `p = []`. -/
theorem pval_zero_one_witness :
    (∀ x ∈ ([] : List ℝ), 0 ≤ x ∧ x ≤ 1) ∧
      ∃ e : Engine, init (NpArray.dim1 []) = Except.ok e ∧
        (pval_method e (QueryInput.scalar (QueryVal.pyInt 0))).1
          = Except.ok (Answer.scalar 1) := by
  have h : ∀ x ∈ ([] : List ℝ), 0 ≤ x ∧ x ≤ 1 := by simp
  obtain ⟨e, he, h1, -, -⟩ := pval_zero_one [] h
  exact ⟨h, e, he, h1⟩

/-- Witness for `pval_identity` at the concrete input `p = [1]`, `k = 1`. -/
theorem pval_identity_witness :
    ((∀ x ∈ [(1 : ℝ)], 0 ≤ x ∧ x ≤ 1) ∧ 1 ≤ 1 ∧ 1 ≤ List.length [(1 : ℝ)]) ∧
      ∃ e : Engine, init (NpArray.dim1 [(1 : ℝ)]) = Except.ok e ∧
        (pval_method e (QueryInput.scalar (QueryVal.pyInt ((1 : ℕ) : ℤ)))).1
          = Except.ok (Answer.scalar (1 - e.cdf_list.getD 0 0)) := by
  have h : ∀ x ∈ [(1 : ℝ)], 0 ≤ x ∧ x ≤ 1 := by
    intro x hx
    rcases List.mem_singleton.mp hx with rfl
    norm_num
  obtain ⟨e, he, h1, -⟩ := pval_identity [(1 : ℝ)] h 1 le_rfl (by simp)
  exact ⟨⟨h, le_rfl, by simp⟩, e, he, h1⟩

/-- Witness for `chi_fill_symmetry` at the concrete input `p = [1, 1]`,
`l = 2` (the one second-half index for `n = 2`). -/
theorem chi_fill_symmetry_witness :
    (half_n (List.length [(1 : ℝ), 1]) + 1 ≤ 2 ∧ 2 ≤ List.length [(1 : ℝ), 1]) ∧
      (chi_list [(1 : ℝ), 1]).getD 2 0
        = (starRingEnd ℂ)
            ((chi_list [(1 : ℝ), 1]).getD (List.length [(1 : ℝ), 1] + 1 - 2) 0) := by
  have h1 : half_n (List.length [(1 : ℝ), 1]) + 1 ≤ 2 := by simp [half_n]
  have h2 : 2 ≤ List.length [(1 : ℝ), 1] := by simp
  exact ⟨⟨h1, h2⟩, (chi_fill_symmetry [(1 : ℝ), 1] 2).2.2.2.1 h1 h2⟩

end PoiBin
